import Mathlib

/-!
Verification development for the claudia recorder pipeline.

Shallow embedding of the alignment / merge / correction logic of
`recorder/scripts/postprocess.py` and of the streaming loop of
`recorder/scripts/stream_transcribe.py`.  Timestamps and probabilities are
modelled as rationals; Python's `round(x, k)` is modelled as rounding of the
rational `x` to `k` decimal places (half up; the half-to-even tie behaviour of
binary floats is not exercised by any statement below).  Python string
operations are modelled structurally over the character list of a `String`.
-/

namespace Claudia

/-- Python `str.strip()` with no argument: drop leading and trailing
whitespace characters. -/
def pyStrip (s : String) : String :=
  ⟨((s.data.dropWhile Char.isWhitespace).reverse.dropWhile Char.isWhitespace).reverse⟩

/-- Python `abs` on a rational. -/
def ratAbs (q : ℚ) : ℚ := if q < 0 then -q else q

/-- Python binary `min` on rationals. -/
def ratMin (a b : ℚ) : ℚ := if a ≤ b then a else b

/-- Python `round(q, 2)`, on rationals: round to 2 decimal places. -/
def round2 (q : ℚ) : ℚ := (⌊q * 100 + 1 / 2⌋ : ℚ) / 100

/-- Python `round(q, 3)`, on rationals: round to 3 decimal places. -/
def round3 (q : ℚ) : ℚ := (⌊q * 1000 + 1 / 2⌋ : ℚ) / 1000

/-- One diarization turn: `{"start": .., "end": .., "speaker": ..}`.
The Python key `end` is spelled `stop` here (`end` is reserved in Lean). -/
structure SpeakerTurn where
  start : ℚ
  stop : ℚ
  speaker : String
  deriving DecidableEq

/-- One word of a Whisper segment.  Only the timestamps are read by the
aligner (`word.get("start", ...)` / `word.get("end", ...)`); a missing key is
modelled as `none`. -/
structure WhisperWord where
  start : Option ℚ
  stop : Option ℚ
  deriving DecidableEq

/-- One Whisper transcript segment, as consumed by
`align_transcript_with_speakers`: `seg["start"]`, `seg["end"]`,
`seg.get("text", "")`, `seg.get("words", [])`. -/
structure WhisperSeg where
  start : ℚ
  stop : ℚ
  text : String
  words : List WhisperWord
  deriving DecidableEq

/-- An aligned (or merged) segment `{start, end, text, speaker}`. -/
structure AlignedSeg where
  start : ℚ
  stop : ℚ
  text : String
  speaker : String
  deriving DecidableEq

/-- The distance used by `find_speaker_at`'s fallback scan:
`min(abs(ss["start"] - t), abs(ss["end"] - t))`. -/
def turnDist (ss : SpeakerTurn) (t : ℚ) : ℚ :=
  ratMin (ratAbs (ss.start - t)) (ratAbs (ss.stop - t))

/-- The first containment loop of `find_speaker_at`:
`for ss in speaker_segments: if ss["start"] <= time_point <= ss["end"]: return ss["speaker"]`. -/
def findContaining (t : ℚ) : List SpeakerTurn → Option SpeakerTurn
  | [] => none
  | ss :: rest => if ss.start ≤ t ∧ t ≤ ss.stop then some ss else findContaining t rest

/-- The nearest-turn scan of `find_speaker_at`, carrying the running
`(min_dist, nearest)` pair; the update is strict (`dist < min_dist`), so the
first turn attaining the minimum distance is kept. -/
def nearestAux (t : ℚ) : List SpeakerTurn → ℚ → String → ℚ × String
  | [], m, n => (m, n)
  | ss :: rest, m, n =>
    if turnDist ss t < m then nearestAux t rest (turnDist ss t) ss.speaker
    else nearestAux t rest m n

/-- Python `find_speaker_at(time_point)` from `postprocess.py`.  The Python nearest
scan starts with `min_dist = inf, nearest = "Unknown"`, so with a non-empty
turn list the first iteration always updates the pair: seeding the scan with
the head turn is the same computation.  With an empty list `inf < 2.0` is
false and the Python code returns `"Unknown"`, as here. -/
def findSpeakerAt (turns : List SpeakerTurn) (t : ℚ) : String :=
  match findContaining t turns with
  | some ss => ss.speaker
  | none =>
    match turns with
    | [] => "Unknown"
    | ss :: rest =>
      let r := nearestAux t rest (turnDist ss t) ss.speaker
      if r.1 < 2 then r.2 else "Unknown"

/-- One vote for label `s` in the `speaker_votes` dict:
`speaker_votes[spk] = speaker_votes.get(spk, 0) + 1`.  Python dicts preserve
insertion order, so the dict is modelled as an association list in
first-occurrence order. -/
def addVote (votes : List (String × Nat)) (s : String) : List (String × Nat) :=
  if votes.any (fun p => p.1 == s) then
    votes.map (fun p => if p.1 = s then (p.1, p.2 + 1) else p)
  else votes ++ [(s, 1)]

/-- Python `max(speaker_votes, key=speaker_votes.get)`: the first key (in insertion
order) whose count is maximal; Python's `max` only replaces the running best
on a strictly greater key value. -/
def maxVote : List (String × Nat) → String
  | [] => "Unknown"
  | p :: rest => (rest.foldl (fun b q => if b.2 < q.2 then q else b) p).1

/-- Word midpoint `(word.get("start", seg["start"]) + word.get("end", seg["end"])) / 2`. -/
def wordMid (seg : WhisperSeg) (w : WhisperWord) : ℚ :=
  (w.start.getD seg.start + w.stop.getD seg.stop) / 2

/-- Speaker attribution for one Whisper segment: majority vote over word
midpoints when word timestamps exist, otherwise the segment midpoint. -/
def segmentSpeaker (turns : List SpeakerTurn) (seg : WhisperSeg) : String :=
  if seg.words = [] then findSpeakerAt turns ((seg.start + seg.stop) / 2)
  else
    maxVote (seg.words.foldl (fun votes w => addVote votes (findSpeakerAt turns (wordMid seg w))) [])

/-- One step of the merge loop: the accumulator holds the output in reverse
(the Python code appends to `merged` and mutates `merged[-1]`; here the most
recent output segment is the head).  The merge condition is
`merged[-1]["speaker"] == seg["speaker"]` and
`gap = seg["start"] - merged[-1]["end"] < 1.5`. -/
def mergeStep (acc : List AlignedSeg) (seg : AlignedSeg) : List AlignedSeg :=
  match acc with
  | last :: rest =>
    if last.speaker = seg.speaker ∧ seg.start - last.stop < 1.5 then
      { last with stop := seg.stop, text := last.text ++ " " ++ seg.text } :: rest
    else seg :: last :: rest
  | [] => [seg]

/-- The merge pass of `align_transcript_with_speakers` (lines 237-248): a
single left fold over the aligned segments. -/
def mergeSegs (aligned : List AlignedSeg) : List AlignedSeg :=
  (aligned.foldl mergeStep []).reverse

/-- Python `align_transcript_with_speakers(whisper_result, speaker_segments)`.
With no turns it returns early (no merge pass); otherwise it aligns each
non-empty-text segment and merges consecutive same-speaker segments. -/
def alignTranscriptWithSpeakers (ws : List WhisperSeg) (turns : List SpeakerTurn) :
    List AlignedSeg :=
  if turns = [] then
    ws.filterMap (fun seg =>
      if pyStrip seg.text = "" then none
      else some ⟨round2 seg.start, round2 seg.stop, pyStrip seg.text, "Unknown"⟩)
  else
    mergeSegs (ws.filterMap (fun seg =>
      if pyStrip seg.text = "" then none
      else some ⟨round2 seg.start, round2 seg.stop, pyStrip seg.text, segmentSpeaker turns seg⟩))

/-- Python `apply_corrections`: the external `DictionaryCorrector.correct` is the
oracle `corr : text ↦ (corrected, stats.total_replacements)`.  A segment's
text is rewritten only when its own replacement count is positive. -/
def applyCorrections (corr : String → String × Nat) (segs : List AlignedSeg) :
    List AlignedSeg :=
  segs.map (fun seg =>
    if 0 < (corr seg.text).2 then { seg with text := (corr seg.text).1 } else seg)

/-- Scan for the first occurrence of the two-character pattern `"] "` and
return the remaining characters after it, if any: this is exactly Python's
`line.split("] ", 1)[1]` when `"] " in line`. -/
def dropThroughTag : List Char → Option (List Char)
  | [] => none
  | ']' :: ' ' :: rest => some rest
  | _ :: rest => dropThroughTag rest

/-- The per-line speaker-tag strip of `apply_llm_corrections`:
`if line.startswith("[") and "] " in line: line = line.split("] ", 1)[1]`. -/
def stripSpeakerTag (line : String) : String :=
  match line.data with
  | '[' :: _ =>
    match dropThroughTag line.data with
    | some rest => ⟨rest⟩
    | none => line
  | _ => line

/-- Python `s.split("\n")`: split a character list at every newline; an input
with no newline yields one piece (so `""` yields `[""]`). -/
def splitOnNl : List Char → List (List Char)
  | [] => [[]]
  | c :: rest =>
    if c = '\n' then [] :: splitOnNl rest
    else
      match splitOnNl rest with
      | l :: ls => (c :: l) :: ls
      | [] => [[c]]

/-- The re-splice loop of `apply_llm_corrections`:
`for i, line in enumerate(lines): if i < len(segments): segments[i]["text"] = ...`.
Walking both lists together is the same indexed assignment: segments beyond
the line count keep their text, lines beyond the segment count are dropped. -/
def resplitLines : List String → List AlignedSeg → List AlignedSeg
  | _, [] => []
  | [], segs => segs
  | line :: lines, seg :: segs =>
    { seg with text := stripSpeakerTag line } :: resplitLines lines segs

/-- The line list of `apply_llm_corrections`:
`lines = corrected_text.strip().split("\n")`. -/
def llmLines (correctedText : String) : List String :=
  (splitOnNl (pyStrip correctedText).data).map (fun l => (⟨l⟩ : String))

/-- Python `apply_llm_corrections`: the external `LLMCorrector.correct` is the
oracle pair `(correctedText, totalCorrections)`.  Only a positive correction
count triggers the re-splice over `corrected_text.strip().split("\n")`. -/
def applyLLMCorrections (segs : List AlignedSeg) (correctedText : String)
    (totalCorrections : Nat) : List AlignedSeg :=
  if 0 < totalCorrections then resplitLines (llmLines correctedText) segs
  else segs

/-- One raw per-chunk transcription segment as read by the streaming loop:
`seg.get("text", "")`, `seg.get("start", 0.0)`, `seg.get("end", 0.0)`,
`seg.get("no_speech_prob", 0.0)`. -/
structure RawSeg where
  text : String
  start : ℚ
  stop : ℚ
  noSpeechProb : ℚ
  deriving DecidableEq

/-- One emitted JSON line of the streaming loop. -/
structure OutSeg where
  text : String
  start : ℚ
  stop : ℚ
  noSpeechProb : ℚ
  isFinal : Bool
  deriving DecidableEq

/-- The cross-cycle state of the streaming loop: `elapsed_seconds` and
`previous_text`. -/
structure StreamState where
  elapsed : ℚ
  prevText : String
  deriving DecidableEq

/-- The loop configuration: `args.buffer_seconds`. -/
structure StreamCfg where
  bufferSeconds : ℚ
  deriving DecidableEq

/-- Mean square of the chunk samples, `np.mean(audio**2)`. -/
def meanSq (audio : List ℚ) : ℚ :=
  (audio.map (fun x => x * x)).sum / (audio.length : ℚ)

/-- The per-segment emission loop (stream_transcribe.py lines 138-159):
drop empty-text segments, drop segments with `no_speech_prob > 0.6`, emit the
rest rebased by the chunk start, and set `previous_text` to each emitted
segment's text. -/
def emitSegs (chunkStart : ℚ) (prev : String) : List RawSeg → String × List OutSeg
  | [] => (prev, [])
  | seg :: rest =>
    if pyStrip seg.text = "" then emitSegs chunkStart prev rest
    else if seg.noSpeechProb > 0.6 then emitSegs chunkStart prev rest
    else
      let r := emitSegs chunkStart (pyStrip seg.text) rest
      (r.1,
        ⟨pyStrip seg.text, round2 (chunkStart + seg.start), round2 (chunkStart + seg.stop),
          round3 seg.noSpeechProb, false⟩ :: r.2)

/-- One cycle of the streaming loop body (after a successful chunk read).
`tr` is the outcome of the `mlx_whisper.transcribe` call: `none` models a
raised exception (caught, logged, `continue`), `some segs` the returned
segment list.  The silence gate `rms < 0.005` with
`rms = sqrt(np.mean(audio**2))` is equivalent to `meanSq audio < 1/40000`
since both sides of the comparison are non-negative. -/
def stepChunk (cfg : StreamCfg) (st : StreamState) (audio : List ℚ)
    (tr : Option (List RawSeg)) : StreamState × List OutSeg :=
  let elapsed' := st.elapsed + cfg.bufferSeconds
  if meanSq audio < 1 / 40000 then (⟨elapsed', st.prevText⟩, [])
  else
    match tr with
    | none => (⟨elapsed', st.prevText⟩, [])
    | some segs =>
      let r := emitSegs st.elapsed st.prevText segs
      (⟨elapsed', r.1⟩, r.2)



-- The first containment loop returns the earliest containing turn.
lemma findContaining_of_first : ∀ (l : List SpeakerTurn) (t : ℚ) (i : ℕ) (ss : SpeakerTurn),
    l.get? i = some ss → (ss.start ≤ t ∧ t ≤ ss.stop) →
    (∀ j u, j < i → l.get? j = some u → ¬ (u.start ≤ t ∧ t ≤ u.stop)) →
    findContaining t l = some ss := by
  intro l t
  induction l with
  | nil => intro i ss h; simp at h
  | cons a as ih =>
    intro i ss hget hc hearl
    cases i with
    | zero =>
      have : a = ss := by simpa using hget
      subst this
      simp [findContaining, if_pos hc]
    | succ i =>
      have ha : ¬ (a.start ≤ t ∧ t ≤ a.stop) := hearl 0 a (Nat.succ_pos i) rfl
      simp only [findContaining, if_neg ha]
      exact ih i ss hget hc (fun j u hj hu => hearl (j + 1) u (Nat.succ_lt_succ hj) hu)

-- No turn contains the point: the containment loop falls through.
lemma findContaining_none : ∀ (l : List SpeakerTurn) (t : ℚ),
    (∀ u ∈ l, ¬ (u.start ≤ t ∧ t ≤ u.stop)) → findContaining t l = none := by
  intro l t
  induction l with
  | nil => intro _; rfl
  | cons a as ih =>
    intro h
    simp only [findContaining, if_neg (h a (List.mem_cons_self a as))]
    exact ih (fun u hu => h u (List.mem_cons_of_mem a hu))

-- The nearest scan returns the pair of the first turn attaining the minimal
-- distance (or the seed), and its distance is a lower bound.
lemma nearestAux_spec (t : ℚ) : ∀ (l : List SpeakerTurn) (m : ℚ) (n : String),
    ((nearestAux t l m n = (m, n)) ∨
      ∃ ss ∈ l, nearestAux t l m n = (turnDist ss t, ss.speaker)) ∧
    (nearestAux t l m n).1 ≤ m ∧ ∀ ss ∈ l, (nearestAux t l m n).1 ≤ turnDist ss t := by
  intro l
  induction l with
  | nil => intro m n; simp [nearestAux]
  | cons a as ih =>
    intro m n
    by_cases h : turnDist a t < m
    · simp only [nearestAux, if_pos h]
      obtain ⟨h1, h2, h3⟩ := ih (turnDist a t) a.speaker
      refine ⟨?_, le_trans h2 (le_of_lt h), ?_⟩
      · rcases h1 with heq | ⟨ss, hss, heq⟩
        · exact Or.inr ⟨a, List.mem_cons_self a as, heq⟩
        · exact Or.inr ⟨ss, List.mem_cons_of_mem a hss, heq⟩
      · intro ss hss
        rcases List.mem_cons.mp hss with rfl | hmem
        · exact h2
        · exact h3 ss hmem
    · simp only [nearestAux, if_neg h]
      obtain ⟨h1, h2, h3⟩ := ih m n
      refine ⟨?_, h2, ?_⟩
      · rcases h1 with heq | ⟨ss, hss, heq⟩
        · exact Or.inl heq
        · exact Or.inr ⟨ss, List.mem_cons_of_mem a hss, heq⟩
      · intro ss hss
        rcases List.mem_cons.mp hss with rfl | hmem
        · exact le_trans h2 (le_of_not_lt h)
        · exact h3 ss hmem

/-- C1: point resolution.  For a non-empty turn list, `find_speaker_at`
returns the label of the first turn containing `t`; if no turn contains `t`
it returns the label of a turn minimizing `min(|start - t|, |end - t|)` when
that minimum is below 2.0 seconds, and `"Unknown"` otherwise.  In
particular, a point 1.0s outside the nearest turn resolves to that turn's
label, and a point 3.0s outside resolves to `"Unknown"`. -/
theorem find_speaker_at_point_resolution :
    ∀ (turns : List SpeakerTurn) (t : ℚ), turns ≠ [] →
      ((∀ i ss, turns.get? i = some ss → ss.start ≤ t → t ≤ ss.stop →
          (∀ j u, j < i → turns.get? j = some u → ¬ (u.start ≤ t ∧ t ≤ u.stop)) →
          findSpeakerAt turns t = ss.speaker) ∧
        ((∀ u ∈ turns, ¬ (u.start ≤ t ∧ t ≤ u.stop)) →
          (∃ ss ∈ turns, (∀ u ∈ turns, turnDist ss t ≤ turnDist u t) ∧
            (turnDist ss t < 2 → findSpeakerAt turns t = ss.speaker)) ∧
          ((∀ u ∈ turns, ¬ turnDist u t < 2) → findSpeakerAt turns t = "Unknown"))) ∧
      (findSpeakerAt [⟨5, 10, "A"⟩] 11 = "A" ∧
        findSpeakerAt [⟨5, 10, "A"⟩] 13 = "Unknown") := by
  intro turns t hne
  refine ⟨⟨?_, ?_⟩,
    by norm_num [findSpeakerAt, findContaining, nearestAux, turnDist, ratAbs, ratMin],
    by norm_num [findSpeakerAt, findContaining, nearestAux, turnDist, ratAbs, ratMin]⟩
  · intro i ss hget h1 h2 hearl
    have hf := findContaining_of_first turns t i ss hget ⟨h1, h2⟩ hearl
    simp [findSpeakerAt, hf]
  · intro hall
    have hf := findContaining_none turns t hall
    match turns, hne with
    | ss :: rest, _ =>
      simp only [findSpeakerAt, hf]
      obtain ⟨hdisj, hle, hrest⟩ := nearestAux_spec t rest (turnDist ss t) ss.speaker
      have hpick : ∃ s0 ∈ ss :: rest,
          nearestAux t rest (turnDist ss t) ss.speaker = (turnDist s0 t, s0.speaker) := by
        rcases hdisj with heq | ⟨s0, hs0, heq⟩
        · exact ⟨ss, List.mem_cons_self ss rest, heq⟩
        · exact ⟨s0, List.mem_cons_of_mem ss hs0, heq⟩
      obtain ⟨s0, hs0, heq⟩ := hpick
      have hmin : ∀ u ∈ ss :: rest,
          (nearestAux t rest (turnDist ss t) ss.speaker).1 ≤ turnDist u t := by
        intro u hu
        rcases List.mem_cons.mp hu with rfl | hmem
        · exact hle
        · exact hrest u hmem
      constructor
      · refine ⟨s0, hs0, ?_, ?_⟩
        · intro u hu
          have := hmin u hu
          rwa [heq] at this
        · intro hlt
          rw [heq]
          simp only [if_pos hlt]
      · intro h2
        have : ¬ (nearestAux t rest (turnDist ss t) ss.speaker).1 < 2 := by
          rw [heq]
          exact h2 s0 hs0
        rw [heq] at this ⊢
        simp only [if_neg this]

theorem find_speaker_at_point_resolution_witness :
    findSpeakerAt [⟨5, 10, "A"⟩] 7 = "A" :=
  (find_speaker_at_point_resolution [⟨5, 10, "A"⟩] 7 (by decide)).1.1 0 ⟨5, 10, "A"⟩ rfl
    (by norm_num) (by norm_num) (fun j u hj _ => absurd hj (Nat.not_lt_zero j))


-- Appending one segment to the input appends through the fold.
lemma mergeSegs_append_last (pre : List AlignedSeg) (seg : AlignedSeg) :
    mergeSegs (pre ++ [seg]) = (mergeStep (pre.foldl mergeStep []) seg).reverse := by
  simp [mergeSegs, List.foldl_append]

/-- C2: the merger is a single left-to-right pass: the current segment is
merged into the last accumulated output segment iff the speaker labels are
equal and `gap = current.start - previous.end < 1.5`; on merge the
accumulated end becomes the current end and the texts are joined by one
space; otherwise the current segment starts a new output segment.  In
particular, a same-speaker gap of 1.49s merges and a gap of 1.5s does not. -/
theorem merge_pass_characterization :
    (∀ (pre q : List AlignedSeg) (a seg : AlignedSeg),
      mergeSegs pre = q ++ [a] →
      mergeSegs (pre ++ [seg]) =
        if a.speaker = seg.speaker ∧ seg.start - a.stop < 1.5 then
          q ++ [{ a with stop := seg.stop, text := a.text ++ " " ++ seg.text }]
        else q ++ [a, seg]) ∧
    mergeSegs [⟨0, 2, "a", "A"⟩, ⟨3.49, 4, "b", "A"⟩] = [⟨0, 4, "a b", "A"⟩] ∧
    mergeSegs [⟨0, 2, "a", "A"⟩, ⟨3.5, 4, "b", "A"⟩] =
      [⟨0, 2, "a", "A"⟩, ⟨3.5, 4, "b", "A"⟩] := by
  refine ⟨?_,
    by norm_num [mergeSegs, mergeStep, show "a" ++ " " ++ "b" = "a b" from rfl],
    by norm_num [mergeSegs, mergeStep]⟩
  intro pre q a seg h
  have hfold : pre.foldl mergeStep [] = a :: q.reverse := by
    have h2 := congrArg List.reverse h
    simpa [mergeSegs] using h2
  rw [mergeSegs_append_last, hfold]
  by_cases hc : a.speaker = seg.speaker ∧ seg.start - a.stop < 1.5
  · simp only [mergeStep, if_pos hc]
    simp
  · simp only [mergeStep, if_neg hc]
    simp

theorem merge_pass_characterization_witness :
    mergeSegs ([⟨0, 2, "a", "A"⟩] ++ [⟨2.5, 4, "b", "B"⟩]) =
      [⟨0, 2, "a", "A"⟩, ⟨2.5, 4, "b", "B"⟩] := by
  have h := merge_pass_characterization.1 [⟨0, 2, "a", "A"⟩] [] ⟨0, 2, "a", "A"⟩
    ⟨2.5, 4, "b", "B"⟩ rfl
  rw [h]
  norm_num [(by decide : ¬ ("A" = "B"))]

/-- The merge condition between a previous output segment `a` and the
current segment `b`: same speaker and a gap below 1.5 seconds. -/
def mergeable (a b : AlignedSeg) : Prop :=
  a.speaker = b.speaker ∧ b.start - a.stop < 1.5

-- One merge step keeps the reversed accumulator free of mergeable
-- consecutive pairs: a merge only rewrites the head's end and text, and a
-- fresh segment is only appended when the pair is not mergeable.
lemma mergeStep_chain (acc : List AlignedSeg) (s : AlignedSeg)
    (h : List.Chain' (fun a b => ¬ mergeable b a) acc) :
    List.Chain' (fun a b => ¬ mergeable b a) (mergeStep acc s) := by
  match acc with
  | [] => simp [mergeStep]
  | a :: as =>
    by_cases hc : a.speaker = s.speaker ∧ s.start - a.stop < 1.5
    · simp only [mergeStep, if_pos hc]
      cases as with
      | nil => simp
      | cons b bs =>
        rw [List.chain'_cons] at h ⊢
        obtain ⟨hab, hrest⟩ := h
        exact ⟨by simpa [mergeable] using hab, hrest⟩
    · simp only [mergeStep, if_neg hc]
      rw [List.chain'_cons]
      exact ⟨fun hm => hc hm, h⟩

-- The whole fold preserves the no-mergeable-pair invariant.
lemma mergeAux_chain : ∀ (l acc : List AlignedSeg),
    List.Chain' (fun a b => ¬ mergeable b a) acc →
    List.Chain' (fun a b => ¬ mergeable b a) (l.foldl mergeStep acc) := by
  intro l
  induction l with
  | nil => intro acc h; exact h
  | cons s rest ih => intro acc h; exact ih (mergeStep acc s) (mergeStep_chain acc s h)

-- On a list with no mergeable consecutive pair the fold only appends.
lemma foldl_no_merge : ∀ (l : List AlignedSeg) (x : AlignedSeg) (xs : List AlignedSeg),
    List.Chain' (fun a b => ¬ mergeable a b) (x :: l) →
    l.foldl mergeStep (x :: xs) = (x :: l).reverse ++ xs := by
  intro l
  induction l with
  | nil => intro x xs _; simp
  | cons s rest ih =>
    intro x xs h
    rw [List.chain'_cons] at h
    obtain ⟨hxs, hrest⟩ := h
    simp only [List.foldl_cons]
    have hstep : mergeStep (x :: xs) s = s :: x :: xs := by
      simp only [mergeStep]
      rw [if_neg (by simpa [mergeable] using hxs)]
    rw [hstep, ih s (x :: xs) hrest]
    simp

/-- C8: merging is idempotent.  The merge output has no consecutive pair
that still satisfies the merge condition, and re-running the merge fold on
its own output returns it unchanged. -/
theorem merge_idempotent :
    ∀ l, List.Chain' (fun a b => ¬ mergeable a b) (mergeSegs l) ∧
      mergeSegs (mergeSegs l) = mergeSegs l := by
  intro l
  have hchain : List.Chain' (fun a b => ¬ mergeable a b) (mergeSegs l) := by
    unfold mergeSegs
    rw [List.chain'_reverse]
    exact mergeAux_chain l [] (by simp)
  refine ⟨hchain, ?_⟩
  cases hout : mergeSegs l with
  | nil => rfl
  | cons y rest =>
    rw [hout] at hchain
    unfold mergeSegs
    simp only [List.foldl_cons]
    have h0 : mergeStep [] y = [y] := rfl
    rw [h0, foldl_no_merge rest y [] hchain]
    simp

-- Keeping only the non-empty-text segments is a filter followed by a map.
lemma filterMap_strip_eq (ws : List WhisperSeg) :
    ws.filterMap (fun seg => if pyStrip seg.text = "" then none
      else some (⟨round2 seg.start, round2 seg.stop, pyStrip seg.text, "Unknown"⟩ : AlignedSeg)) =
    (ws.filter (fun s => !(pyStrip s.text == ""))).map
      (fun s => ⟨round2 s.start, round2 s.stop, pyStrip s.text, "Unknown"⟩) := by
  induction ws with
  | nil => rfl
  | cons s rest ih =>
    simp only [List.filterMap_cons, List.filter_cons]
    by_cases h : pyStrip s.text = ""
    · simp [h, ih]
    · simp [h, ih]

-- With an empty turn list the aligner is a pure filter-and-relabel map.
lemma align_nil_eq (ws : List WhisperSeg) :
    alignTranscriptWithSpeakers ws [] =
      (ws.filter (fun s => !(pyStrip s.text == ""))).map
        (fun s => ⟨round2 s.start, round2 s.stop, pyStrip s.text, "Unknown"⟩) := by
  unfold alignTranscriptWithSpeakers
  rw [if_pos rfl]
  exact filterMap_strip_eq ws

/-- C3: fail-open on an empty turn sequence.  Aligning against no speaker
turns yields exactly one output segment per input segment with non-empty
stripped text, in input order, and every output is labeled `"Unknown"`. -/
theorem align_empty_turns_fail_open :
    ∀ ws : List WhisperSeg,
      alignTranscriptWithSpeakers ws [] =
        (ws.filter (fun s => !(pyStrip s.text == ""))).map
          (fun s => ⟨round2 s.start, round2 s.stop, pyStrip s.text, "Unknown"⟩) ∧
      ∀ a ∈ alignTranscriptWithSpeakers ws [], a.speaker = "Unknown" := by
  intro ws
  refine ⟨align_nil_eq ws, ?_⟩
  intro a ha
  rw [align_nil_eq ws] at ha
  obtain ⟨s, _, rfl⟩ := List.mem_map.mp ha
  rfl

theorem align_empty_turns_fail_open_witness :
    (⟨0, 1, "hi", "Unknown"⟩ : AlignedSeg).speaker = "Unknown" :=
  (align_empty_turns_fail_open [⟨0, 1, "hi", []⟩]).2 ⟨0, 1, "hi", "Unknown"⟩ (by
    have h : alignTranscriptWithSpeakers [⟨0, 1, "hi", []⟩] [] = [⟨0, 1, "hi", "Unknown"⟩] := by
      norm_num [alignTranscriptWithSpeakers, round2, List.filterMap_cons,
        show pyStrip "hi" = "hi" from rfl, (by decide : ¬ ("hi" = ""))]
    rw [h]
    exact List.mem_singleton.mpr rfl)


-- The three outcomes of one chunk cycle, as rewrite equations.
lemma stepChunk_silent (cfg : StreamCfg) (st : StreamState) (audio : List ℚ)
    (tr : Option (List RawSeg)) (hs : meanSq audio < 1 / 40000) :
    stepChunk cfg st audio tr = (⟨st.elapsed + cfg.bufferSeconds, st.prevText⟩, []) := by
  simp only [stepChunk, if_pos hs]

lemma stepChunk_err (cfg : StreamCfg) (st : StreamState) (audio : List ℚ)
    (hs : ¬ meanSq audio < 1 / 40000) :
    stepChunk cfg st audio none = (⟨st.elapsed + cfg.bufferSeconds, st.prevText⟩, []) := by
  simp only [stepChunk, if_neg hs]

lemma stepChunk_some (cfg : StreamCfg) (st : StreamState) (audio : List ℚ)
    (segs : List RawSeg) (hs : ¬ meanSq audio < 1 / 40000) :
    stepChunk cfg st audio (some segs) =
      (⟨st.elapsed + cfg.bufferSeconds, (emitSegs st.elapsed st.prevText segs).1⟩,
        (emitSegs st.elapsed st.prevText segs).2) := by
  simp only [stepChunk, if_neg hs]

-- Every emitted segment of one chunk comes from a kept raw segment (text
-- non-empty after strip, no-speech probability not above 0.6) with rebased
-- and rounded timestamps; the context text is either untouched or the
-- stripped text of a kept segment.
lemma emitSegs_spec : ∀ (cs : ℚ) (segs : List RawSeg) (prev : String),
    (∀ m ∈ (emitSegs cs prev segs).2, ∃ seg ∈ segs, ¬ seg.noSpeechProb > 0.6 ∧
      ¬ pyStrip seg.text = "" ∧
      m = ⟨pyStrip seg.text, round2 (cs + seg.start), round2 (cs + seg.stop),
        round3 seg.noSpeechProb, false⟩) ∧
    ((emitSegs cs prev segs).1 = prev ∨ ∃ seg ∈ segs, ¬ seg.noSpeechProb > 0.6 ∧
      ¬ pyStrip seg.text = "" ∧ (emitSegs cs prev segs).1 = pyStrip seg.text) := by
  intro cs segs
  induction segs with
  | nil => intro prev; simp [emitSegs]
  | cons seg rest ih =>
    intro prev
    by_cases h1 : pyStrip seg.text = ""
    · simp only [emitSegs, if_pos h1]
      obtain ⟨ha, hb⟩ := ih prev
      refine ⟨fun m hm => ?_, ?_⟩
      · obtain ⟨s, hs, h⟩ := ha m hm
        exact ⟨s, List.mem_cons_of_mem _ hs, h⟩
      · rcases hb with h | ⟨s, hs, h⟩
        · exact Or.inl h
        · exact Or.inr ⟨s, List.mem_cons_of_mem _ hs, h⟩
    · by_cases h2 : seg.noSpeechProb > 0.6
      · simp only [emitSegs, if_neg h1, if_pos h2]
        obtain ⟨ha, hb⟩ := ih prev
        refine ⟨fun m hm => ?_, ?_⟩
        · obtain ⟨s, hs, h⟩ := ha m hm
          exact ⟨s, List.mem_cons_of_mem _ hs, h⟩
        · rcases hb with h | ⟨s, hs, h⟩
          · exact Or.inl h
          · exact Or.inr ⟨s, List.mem_cons_of_mem _ hs, h⟩
      · simp only [emitSegs, if_neg h1, if_neg h2]
        obtain ⟨ha, hb⟩ := ih (pyStrip seg.text)
        refine ⟨fun m hm => ?_, ?_⟩
        · simp only [List.mem_cons] at hm
          rcases hm with rfl | hm
          · exact ⟨seg, List.mem_cons_self _ _, h2, h1, rfl⟩
          · obtain ⟨s, hs, h⟩ := ha m hm
            exact ⟨s, List.mem_cons_of_mem _ hs, h⟩
        · rcases hb with h | ⟨s, hs, h⟩
          · exact Or.inr ⟨seg, List.mem_cons_self _ _, h2, h1, h⟩
          · exact Or.inr ⟨s, List.mem_cons_of_mem _ hs, h⟩

/-- C4 (amended): in every cycle, each emitted segment's start and end equal
the chunk's starting offset (the value of elapsed_seconds before the chunk)
plus the transcription call's chunk-relative start and end, rounded to two
decimal places; elapsed_seconds is advanced by exactly the chunk duration
once per chunk read, whatever the chunk's outcome, hence (for a non-negative
buffer duration) it never decreases. -/
theorem stream_rebase_and_monotonic_elapsed :
    ∀ (cfg : StreamCfg) (st : StreamState) (audio : List ℚ) (tr : Option (List RawSeg)),
      (stepChunk cfg st audio tr).1.elapsed = st.elapsed + cfg.bufferSeconds ∧
      (0 ≤ cfg.bufferSeconds → st.elapsed ≤ (stepChunk cfg st audio tr).1.elapsed) ∧
      ∀ m ∈ (stepChunk cfg st audio tr).2, ∃ segs, tr = some segs ∧
        ∃ seg ∈ segs, m.start = round2 (st.elapsed + seg.start) ∧
          m.stop = round2 (st.elapsed + seg.stop) := by
  intro cfg st audio tr
  have he : (stepChunk cfg st audio tr).1.elapsed = st.elapsed + cfg.bufferSeconds := by
    by_cases hs : meanSq audio < 1 / 40000
    · rw [stepChunk_silent cfg st audio tr hs]
    · cases tr with
      | none => rw [stepChunk_err cfg st audio hs]
      | some segs => rw [stepChunk_some cfg st audio segs hs]
  refine ⟨he, fun h => by rw [he]; linarith, ?_⟩
  intro m hm
  by_cases hs : meanSq audio < 1 / 40000
  · rw [stepChunk_silent cfg st audio tr hs] at hm
    simp at hm
  · cases tr with
    | none =>
      rw [stepChunk_err cfg st audio hs] at hm
      simp at hm
    | some segs =>
      rw [stepChunk_some cfg st audio segs hs] at hm
      obtain ⟨seg, hseg, _, _, hmeq⟩ := (emitSegs_spec st.elapsed segs st.prevText).1 m hm
      exact ⟨segs, rfl, seg, hseg, by rw [hmeq], by rw [hmeq]⟩

theorem stream_rebase_witness :
    (stepChunk ⟨3⟩ ⟨0, ""⟩ [1] none).1.elapsed = 0 + 3 ∧
    (0 : ℚ) ≤ (stepChunk ⟨3⟩ ⟨0, ""⟩ [1] none).1.elapsed :=
  ⟨(stream_rebase_and_monotonic_elapsed ⟨3⟩ ⟨0, ""⟩ [1] none).1,
    (stream_rebase_and_monotonic_elapsed ⟨3⟩ ⟨0, ""⟩ [1] none).2.1 (by norm_num)⟩

theorem stream_rebase_counterexample :
    (stepChunk ⟨3⟩ ⟨0, ""⟩ [1] (some [⟨"hi", 3 / 1000, 1, 0⟩])).2 =
      [⟨"hi", 0, 1, 0, false⟩] ∧
    ¬ ((0 : ℚ) = 0 + 3 / 1000) := by
  constructor
  · rw [stepChunk_some _ _ _ _ (by norm_num [meanSq])]
    norm_num [emitSegs, round2, round3,
      show pyStrip "hi" = "hi" from rfl, (by decide : ¬ ("hi" = ""))]
  · norm_num

/-- C5: the hallucination filter.  In the streaming loop, an output segment
whose no-speech probability exceeds 0.6 is never emitted and never becomes
the cross-chunk context text, whatever its text content; every emitted
segment and every context update comes from a segment with probability at
most 0.6.  A segment with probability 0.8 yields nothing, for any text. -/
theorem hallucination_filter :
    ∀ (cfg : StreamCfg) (st : StreamState) (audio : List ℚ) (segs : List RawSeg),
      (∀ m ∈ (stepChunk cfg st audio (some segs)).2,
        ∃ seg ∈ segs, seg.noSpeechProb ≤ 0.6 ∧ m.text = pyStrip seg.text) ∧
      ((stepChunk cfg st audio (some segs)).1.prevText = st.prevText ∨
        ∃ seg ∈ segs, seg.noSpeechProb ≤ 0.6 ∧
          (stepChunk cfg st audio (some segs)).1.prevText = pyStrip seg.text) ∧
      ∀ txt : String, emitSegs 0 "ctx" [⟨txt, 0, 1, 0.8⟩] = ("ctx", []) := by
  intro cfg st audio segs
  have hem : ∀ txt : String, emitSegs 0 "ctx" [⟨txt, 0, 1, 0.8⟩] = ("ctx", []) := by
    intro txt
    by_cases ht : pyStrip txt = ""
    · simp [emitSegs, ht]
    · simp only [emitSegs, if_neg ht]
      rw [if_pos (by norm_num : ((⟨txt, 0, 1, 0.8⟩ : RawSeg).noSpeechProb > 0.6))]
  by_cases hs : meanSq audio < 1 / 40000
  · rw [stepChunk_silent cfg st audio (some segs) hs]
    refine ⟨fun m hm => ?_, Or.inl rfl, hem⟩
    simp at hm
  · rw [stepChunk_some cfg st audio segs hs]
    obtain ⟨ha, hb⟩ := emitSegs_spec st.elapsed segs st.prevText
    refine ⟨fun m hm => ?_, ?_, hem⟩
    · obtain ⟨seg, hseg, hp, _, hmeq⟩ := ha m hm
      exact ⟨seg, hseg, le_of_not_lt hp, by rw [hmeq]⟩
    · rcases hb with h | ⟨seg, hseg, hp, _, h⟩
      · exact Or.inl h
      · exact Or.inr ⟨seg, hseg, le_of_not_lt hp, h⟩

theorem hallucination_filter_witness :
    ∃ seg ∈ ([⟨"hi", 0, 1, 0⟩] : List RawSeg), seg.noSpeechProb ≤ 0.6 ∧
      (⟨"hi", 0, 1, 0, false⟩ : OutSeg).text = pyStrip seg.text :=
  (hallucination_filter ⟨3⟩ ⟨0, "c"⟩ [1] [⟨"hi", 0, 1, 0⟩]).1 ⟨"hi", 0, 1, 0, false⟩ (by
    have h : (stepChunk ⟨3⟩ ⟨0, "c"⟩ [1] (some [⟨"hi", 0, 1, 0⟩])).2 =
        [⟨"hi", 0, 1, 0, false⟩] := by
      rw [stepChunk_some _ _ _ _ (by norm_num [meanSq])]
      norm_num [emitSegs, round2, round3,
        show pyStrip "hi" = "hi" from rfl, (by decide : ¬ ("hi" = ""))]
    rw [h]
    exact List.mem_singleton.mpr rfl)

/-- C6: the silence gate.  For a chunk whose RMS energy is below 0.005 (for
example an all-zero chunk), the loop emits nothing, the transcription
outcome is irrelevant (no call is observable), the context text is
unchanged, and elapsed_seconds still advances by exactly the chunk
duration. -/
theorem silence_gate :
    ∀ (cfg : StreamCfg) (st : StreamState) (audio : List ℚ)
      (tr tr2 : Option (List RawSeg)),
      Real.sqrt ((meanSq audio : ℝ)) < 0.005 →
      stepChunk cfg st audio tr = stepChunk cfg st audio tr2 ∧
      stepChunk cfg st audio tr = (⟨st.elapsed + cfg.bufferSeconds, st.prevText⟩, []) := by
  intro cfg st audio tr tr2 h
  have hq : meanSq audio < 1 / 40000 := by
    have h2 : ((meanSq audio : ℚ) : ℝ) < 0.005 ^ 2 :=
      (Real.sqrt_lt' (by norm_num : (0 : ℝ) < 0.005)).mp h
    have h4 : ((meanSq audio : ℚ) : ℝ) < ((1 / 40000 : ℚ) : ℝ) := by
      push_cast
      norm_num at h2 ⊢
      linarith
    exact_mod_cast h4
  rw [stepChunk_silent cfg st audio tr hq, stepChunk_silent cfg st audio tr2 hq]
  exact ⟨rfl, rfl⟩

theorem silence_gate_witness :
    stepChunk ⟨3⟩ ⟨5, "c"⟩ [0, 0, 0] (some [⟨"x", 0, 1, 0⟩]) =
      stepChunk ⟨3⟩ ⟨5, "c"⟩ [0, 0, 0] none :=
  (silence_gate ⟨3⟩ ⟨5, "c"⟩ [0, 0, 0] (some [⟨"x", 0, 1, 0⟩]) none (by
    have h : meanSq [0, 0, 0] = 0 := by norm_num [meanSq]
    rw [h]
    norm_num [Real.sqrt_zero])).1


-- The re-splice preserves the number of segments.
lemma resplit_length : ∀ (lines : List String) (segs : List AlignedSeg),
    (resplitLines lines segs).length = segs.length := by
  intro lines segs
  induction segs generalizing lines with
  | nil => cases lines <;> rfl
  | cons seg rest ih =>
    cases lines with
    | nil => rfl
    | cons l ls => simp [resplitLines, ih ls]

-- Pointwise description of the re-splice: position i gets line i with the
-- speaker tag stripped when a line i exists, and keeps its text otherwise.
lemma resplit_get? : ∀ (lines : List String) (segs : List AlignedSeg) (i : ℕ),
    (resplitLines lines segs)[i]? =
      (segs[i]?).map (fun s =>
        if i < lines.length then { s with text := stripSpeakerTag (lines[i]?.getD "") }
        else s) := by
  intro lines segs
  induction segs generalizing lines with
  | nil => intro i; cases lines <;> simp [resplitLines]
  | cons seg rest ih =>
    intro i
    cases lines with
    | nil =>
      simp only [resplitLines, List.length_nil, Nat.not_lt_zero, if_false]
      cases h : (seg :: rest)[i]? <;> simp [h]
    | cons l ls =>
      cases i with
      | zero => simp [resplitLines]
      | succ i => simp [resplitLines, ih ls, Nat.succ_lt_succ_iff]

/-- C7: the LLM re-splice.  With a positive correction count, the corrected
block is stripped, split on newlines, and line i replaces segment i's text
with a leading speaker tag removed when present; the output has exactly one
segment per input segment, segments beyond the line count keep their
pre-correction text, lines beyond the segment count are dropped, and no
field other than text changes. -/
theorem llm_resplice :
    ∀ (segs : List AlignedSeg) (correctedText : String) (n : ℕ), 0 < n →
      (applyLLMCorrections segs correctedText n).length = segs.length ∧
      (∀ i : ℕ, (applyLLMCorrections segs correctedText n)[i]? =
        (segs[i]?).map (fun s =>
          if i < (llmLines correctedText).length
          then { s with text := stripSpeakerTag ((llmLines correctedText)[i]?.getD "") }
          else s)) ∧
      stripSpeakerTag "[A] hello" = "hello" := by
  intro segs ct n hn
  simp only [applyLLMCorrections, if_pos hn]
  exact ⟨resplit_length _ _, fun i => resplit_get? _ _ i, rfl⟩

theorem llm_resplice_witness :
    (applyLLMCorrections [⟨0, 1, "t", "A"⟩] "line1" 1).length =
      ([⟨0, 1, "t", "A"⟩] : List AlignedSeg).length :=
  (llm_resplice [⟨0, 1, "t", "A"⟩] "line1" 1 (by decide)).1

/-- C9: with an empty turn sequence the aligner returns before the merge
step: the output has one segment per non-empty-text input (nothing is ever
collapsed), and two adjacent `"Unknown"` segments with a 0.2s gap stay
separate, while the same configuration under a non-empty turn sequence
(whose turns are all beyond the 2.0s fallback) is merged into one
segment. -/
theorem empty_turns_skip_merge :
    (∀ ws : List WhisperSeg, (alignTranscriptWithSpeakers ws []).length =
      (ws.filter (fun s => !(pyStrip s.text == ""))).length) ∧
    alignTranscriptWithSpeakers [⟨0, 1, "a", []⟩, ⟨1.2, 2, "b", []⟩] [] =
      [⟨0, 1, "a", "Unknown"⟩, ⟨1.2, 2, "b", "Unknown"⟩] ∧
    alignTranscriptWithSpeakers [⟨0, 1, "a", []⟩, ⟨1.2, 2, "b", []⟩] [⟨100, 101, "X"⟩] =
      [⟨0, 2, "a b", "Unknown"⟩] := by
  refine ⟨?_, ?_, ?_⟩
  · intro ws
    rw [align_nil_eq]
    simp
  · norm_num [alignTranscriptWithSpeakers, round2, List.filterMap_cons,
      show pyStrip "a" = "a" from rfl, show pyStrip "b" = "b" from rfl,
      (by decide : ¬ ("a" = "")), (by decide : ¬ ("b" = ""))]
  · norm_num [alignTranscriptWithSpeakers, round2, segmentSpeaker, findSpeakerAt,
      findContaining, nearestAux, turnDist, ratAbs, ratMin, mergeSegs, mergeStep,
      List.filterMap_cons,
      show pyStrip "a" = "a" from rfl, show pyStrip "b" = "b" from rfl,
      show "a" ++ " " ++ "b" = "a b" from rfl,
      (by decide : ¬ ("a" = "")), (by decide : ¬ ("b" = ""))]

/-- C10: correction stages respect their reported counts.  The dictionary
stage leaves a segment's text unchanged whenever that segment's replacement
count is 0, and the LLM stage leaves every segment unchanged whenever the
total correction count is 0, even if the corrector returned different
text. -/
theorem corrections_respect_zero_counts :
    (∀ (corr : String → String × Nat) (segs : List AlignedSeg) (i : ℕ) (seg : AlignedSeg),
      segs[i]? = some seg → (corr seg.text).2 = 0 →
      (applyCorrections corr segs)[i]? = some seg) ∧
    (∀ (segs : List AlignedSeg) (ct : String), applyLLMCorrections segs ct 0 = segs) := by
  constructor
  · intro corr segs i seg hget hzero
    simp only [applyCorrections, List.getElem?_map, hget, Option.map_some']
    simp [hzero]
  · intro segs ct
    simp [applyLLMCorrections]

theorem corrections_respect_zero_counts_witness :
    (applyCorrections (fun _ => ("different", 0)) [⟨0, 1, "x", "A"⟩])[0]? =
      some ⟨0, 1, "x", "A"⟩ :=
  corrections_respect_zero_counts.1 (fun _ => ("different", 0)) [⟨0, 1, "x", "A"⟩] 0
    ⟨0, 1, "x", "A"⟩ rfl rfl

end Claudia
